import Mathlib

/-!
Shallow embedding of the Day 12 "Hot Springs" arrangement counter of
`src/bin/twelfth.rs`: the ternary cell alphabet, records, the
gap-composition enumeration `Report::combinations`, the `u32`-bitmask
`Combination` representation and the brute-force `Pattern::combinations`
enumeration, together with theorems settling the specification's claims.
-/

/-- The ternary cell alphabet of `twelfth.rs` (`enum Bit`): `I` is a block
(`#`), `O` a gap (`.`), `X` an unknown (`?`). -/
inductive Bit
  | I
  | O
  | X
deriving DecidableEq

/-- `Bit::matches`: an `X` on either side matches anything, otherwise the
cells must be equal. -/
def Bit.matches : Bit → Bit → Bool
  | .X, _ => true
  | _, .X => true
  | .I, .I => true
  | .O, .O => true
  | _, _ => false

/-- `struct Clue`: a required run length plus the constraint solver's
progress markers; the Rust field `end` is called `stop` here because `end`
is a Lean keyword. -/
structure Clue where
  len : Nat
  start : Option Nat
  stop : Option Nat
deriving DecidableEq

/-- `Clue::new`: a clue of the given length with no progress markers. -/
def Clue.new (len : Nat) : Clue := ⟨len, none, none⟩

/-- `struct Report`: the sentinel-padded pattern, the clue list and the
solver cursor `solved_until`. -/
structure Report where
  pattern : List Bit
  clues : List Clue
  solved_until : Nat
deriving DecidableEq

/-- `Report::new`: a leading and a trailing `Gap` sentinel are added to the
pattern (`insert(0, Bit::O)` and `push(Bit::O)`), the groups become `Clue`s,
and `solved_until` counts the leading gaps. -/
def Report.new (pattern : List Bit) (groups : List Nat) : Report :=
  let p := (Bit.O :: pattern) ++ [Bit.O]
  { pattern := p
    clues := groups.map Clue.new
    solved_until := (p.takeWhile (fun c => decide (c = Bit.O))).length }

/-- The Rust half-open range `a..b` as a list. -/
def rustRange (a b : Nat) : List Nat := (List.range (b - a)).map (a + ·)

/-- `itertools::multi_cartesian_product`: all ways of choosing one element
from each list, in order. -/
def productAll {α : Type} : List (List α) → List (List α)
  | [] => [[]]
  | l :: ls => l.flatMap (fun x => (productAll ls).map (x :: ·))

/-- `itertools::interleave`: alternate elements of two lists, starting with
the first list, appending whatever remains once one side runs out. -/
def interleaveL {α : Type} : List α → List α → List α
  | [], ys => ys
  | x :: xs, [] => x :: xs
  | x :: xs, y :: ys => x :: y :: interleaveL xs ys

/-- The combination layout of `Report::combinations`: the gap lengths are
interleaved with the clue lengths (`(O, gap)` pairs against `(I, len)`
pairs) and each pair is expanded by `repeat_n`. -/
def buildList (gaps lens : List Nat) : List Bit :=
  ((interleaveL (gaps.map (fun i => (Bit.O, i))) (lens.map (fun l => (Bit.I, l)))).map
    (fun q => List.replicate q.2 q.1)).flatten

/-- `struct Combination`: a `u32` bitmask plus a cell count. The `u32`
width is modelled by reducing every shift amount mod 32, the wrapping
behaviour of a release build (a debug build panics instead once a shift
amount reaches 32; either way the bitmask is only faithful up to 32
cells, see the C9 theorem). -/
structure Combination where
  pattern : Nat
  len : Nat
deriving DecidableEq

/-- `impl FromIterator<Bit> for Combination`: fold over the cells, OR-ing
in `1 << len` for each block cell and counting the length. -/
def Combination.fromList (l : List Bit) : Combination :=
  l.foldl
    (fun c b =>
      { pattern := if b = Bit.I then c.pattern ||| (1 <<< (c.len % 32)) else c.pattern
        len := c.len + 1 })
    ⟨0, 0⟩

/-- One cell of `Combination::iter`: `pattern & (1 << i) > 0`, the shift
again reduced mod 32 for the `u32` width. -/
def Combination.bitAt (c : Combination) (i : Nat) : Bit :=
  if c.pattern &&& (1 <<< (i % 32)) > 0 then Bit.I else Bit.O

/-- `Combination::iter` collected into a list: the cells read back from
bits `0..len`. -/
def Combination.toList (c : Combination) : List Bit :=
  (List.range c.len).map c.bitAt

/-- `Report::combinations`: enumerate every way of splitting the
`n - Σ len` surplus cells into `m = clues + 1` gaps of size `1..k`, keep
the splits summing to `k`, lay each out as gaps interleaved with the clue
runs, and keep the layouts that match the pattern cell-wise. -/
def Report.combinations (r : Report) : List Combination :=
  let n := r.pattern.length
  let m := r.clues.length + 1
  let k := n - (r.clues.map (fun c => c.len)).sum
  (((productAll (List.replicate m (rustRange 1 k))).filter
        (fun t => decide (t.sum = k))).map
      (fun t => Combination.fromList (buildList t (r.clues.map (fun c => c.len))))).filter
    (fun c => (c.toList.zip r.pattern).all (fun q => q.1.matches q.2))

/-- `Report::combinations().count()`. The gap budget `n - Σ len` is a
`usize` subtraction in the source; when `Σ len` exceeds `n` it underflows
(a panic under overflow checks, a wrap-around otherwise), which is
modelled as `none`. -/
def Report.count? (r : Report) : Option Nat :=
  if (r.clues.map (fun c => c.len)).sum ≤ r.pattern.length then
    some r.combinations.length
  else none

/-- The per-cell choice lists of `Pattern::combinations`: a known cell
keeps its value, an unknown branches into block or gap. -/
def cellChoices : Bit → List Bit
  | Bit.I => [Bit.I]
  | Bit.O => [Bit.O]
  | Bit.X => [Bit.I, Bit.O]

/-- `Pattern::combinations`: the brute-force enumeration of every full
resolution of the unknown cells. -/
def Pattern.combinations (p : List Bit) : List Combination :=
  (productAll (p.map cellChoices)).map Combination.fromList

/-- Modelled from the spec: the replication transform `unfold` of §4.2 is
absent from the source (`Part::Two` of `main` is `unimplemented!()`), so
it is taken from the spec's words: join `k` copies of the pattern with an
`Unknown` separator between copies and concatenate `k` copies of the clue
list. -/
def unfoldRecord (pattern : List Bit) (groups : List Nat) (k : Nat) :
    List Bit × List Nat :=
  (List.intercalate [Bit.X] (List.replicate k pattern),
    (List.replicate k groups).flatten)

/-- Helper for `runs`: scan the cells left to right carrying the length of
the current block run, emitting it when the run ends. -/
def runsAux : List Bit → Nat → List Nat
  | [], 0 => []
  | [], n + 1 => [n + 1]
  | Bit.I :: bs, n => runsAux bs (n + 1)
  | Bit.O :: bs, 0 => runsAux bs 0
  | Bit.O :: bs, n + 1 => (n + 1) :: runsAux bs 0
  | Bit.X :: bs, 0 => runsAux bs 0
  | Bit.X :: bs, n + 1 => (n + 1) :: runsAux bs 0

/-- The maximal block-run lengths of a cell sequence, read left to right:
the reference notion the specification states its claims with. -/
def runs (l : List Bit) : List Nat := runsAux l 0

/-- Helper for `oruns`: the gap-run counterpart of `runsAux`. -/
def orunsAux : List Bit → Nat → List Nat
  | [], 0 => []
  | [], n + 1 => [n + 1]
  | Bit.O :: bs, n => orunsAux bs (n + 1)
  | Bit.I :: bs, 0 => orunsAux bs 0
  | Bit.I :: bs, n + 1 => (n + 1) :: orunsAux bs 0
  | Bit.X :: bs, 0 => orunsAux bs 0
  | Bit.X :: bs, n + 1 => (n + 1) :: orunsAux bs 0

/-- The maximal gap-run lengths of a cell sequence: the inverse data of
the gap-composition layout, used to recover the gap tuple of a
combination. -/
def oruns (l : List Bit) : List Nat := orunsAux l 0

example : runs [Bit.I, Bit.I, Bit.O, Bit.I] = [2, 1] := rfl

example : oruns [Bit.O, Bit.I, Bit.O, Bit.O] = [1, 2] := rfl

example :
    (Report.new [Bit.X, Bit.X, Bit.X, Bit.O, Bit.I, Bit.I, Bit.I] [1, 1, 3]).count? =
      some 1 := by
  decide

theorem mem_rustRange {a b x : Nat} : x ∈ rustRange a b ↔ a ≤ x ∧ x < b := by
  simp only [rustRange, List.mem_map, List.mem_range]
  constructor
  · rintro ⟨i, hi, rfl⟩
    omega
  · rintro ⟨h1, h2⟩
    exact ⟨x - a, by omega, by omega⟩

theorem nodup_rustRange (a b : Nat) : (rustRange a b).Nodup :=
  (List.nodup_range _).map fun x y h => by omega

theorem mem_productAll {α : Type} {ls : List (List α)} {s : List α} :
    s ∈ productAll ls ↔ List.Forall₂ (fun x l => x ∈ l) s ls := by
  induction ls generalizing s with
  | nil => simp [productAll]
  | cons l ls ih =>
    simp only [productAll, List.mem_flatMap, List.mem_map, List.forall₂_cons_right_iff, ih]
    constructor
    · rintro ⟨x, hx, t, ht, rfl⟩
      exact ⟨x, t, hx, ht, rfl⟩
    · rintro ⟨x, t, hx, ht, rfl⟩
      exact ⟨x, hx, t, ht, rfl⟩

theorem nodup_productAll {α : Type} {ls : List (List α)} (h : ∀ l ∈ ls, l.Nodup) :
    (productAll ls).Nodup := by
  induction ls with
  | nil => simp [productAll]
  | cons l ls ih =>
    refine List.nodup_flatMap.2 ⟨fun x _ => ?_, ?_⟩
    · exact (ih fun u hu => h u (List.mem_cons_of_mem _ hu)).map
        fun s t hst => by injection hst
    · refine (h l (List.mem_cons_self _ _)).imp fun hxy => ?_
      intro z hz hz'
      obtain ⟨s, _, rfl⟩ := List.mem_map.1 hz
      obtain ⟨t, _, ht⟩ := List.mem_map.1 hz'
      exact hxy (by injection ht.symm)

theorem forall₂_replicate_right {α β : Type} {R : α → β → Prop} {m : Nat} {b : β}
    {s : List α} :
    List.Forall₂ R s (List.replicate m b) ↔ s.length = m ∧ ∀ a ∈ s, R a b := by
  induction m generalizing s with
  | zero =>
    simp only [List.replicate, List.forall₂_nil_right_iff]
    constructor
    · rintro rfl
      simp
    · rintro ⟨h, _⟩
      exact List.length_eq_zero.1 h
  | succ m ih =>
    cases s with
    | nil => simp [List.replicate_succ]
    | cons a s =>
      simp only [List.replicate_succ, List.forall₂_cons, ih, List.length_cons,
        List.mem_cons, Nat.succ_inj]
      constructor
      · rintro ⟨h1, h2, h3⟩
        exact ⟨h2, fun x hx => by rcases hx with rfl | hx; exact h1; exact h3 x hx⟩
      · rintro ⟨h1, h2⟩
        exact ⟨h2 a (Or.inl rfl), h1, fun x hx => h2 x (Or.inr hx)⟩

theorem buildList_nil_nil : buildList [] [] = [] := rfl

theorem buildList_nil_cons (l : Nat) (ls : List Nat) :
    buildList [] (l :: ls) = List.replicate l Bit.I ++ buildList [] ls := by
  simp [buildList, interleaveL]

theorem buildList_cons_nil (g : Nat) (gs : List Nat) :
    buildList (g :: gs) [] = List.replicate g Bit.O ++ buildList gs [] := by
  cases gs <;> simp [buildList, interleaveL]

theorem buildList_cons_cons (g l : Nat) (gs ls : List Nat) :
    buildList (g :: gs) (l :: ls) =
      List.replicate g Bit.O ++ (List.replicate l Bit.I ++ buildList gs ls) := by
  simp [buildList, interleaveL]

theorem length_buildList : ∀ (gs ls : List Nat),
    (buildList gs ls).length = gs.sum + ls.sum
  | [], [] => rfl
  | [], l :: ls => by
    rw [buildList_nil_cons]
    simp [length_buildList [] ls]
  | g :: gs, [] => by
    rw [buildList_cons_nil]
    simp [length_buildList gs []]
  | g :: gs, l :: ls => by
    rw [buildList_cons_cons]
    simp [length_buildList gs ls]
    omega

theorem onlyIO_buildList : ∀ (gs ls : List Nat), ∀ b ∈ buildList gs ls,
    b = Bit.I ∨ b = Bit.O
  | [], [] => by
    intro b hb
    simp [buildList_nil_nil] at hb
  | [], l :: ls => by
    intro b hb
    rw [buildList_nil_cons] at hb
    rcases List.mem_append.1 hb with hb | hb
    · exact Or.inl (List.eq_of_mem_replicate hb)
    · exact onlyIO_buildList [] ls b hb
  | g :: gs, [] => by
    intro b hb
    rw [buildList_cons_nil] at hb
    rcases List.mem_append.1 hb with hb | hb
    · exact Or.inr (List.eq_of_mem_replicate hb)
    · exact onlyIO_buildList gs [] b hb
  | g :: gs, l :: ls => by
    intro b hb
    rw [buildList_cons_cons] at hb
    rcases List.mem_append.1 hb with hb | hb
    · exact Or.inr (List.eq_of_mem_replicate hb)
    · rcases List.mem_append.1 hb with hb | hb
      · exact Or.inl (List.eq_of_mem_replicate hb)
      · exact onlyIO_buildList gs ls b hb

theorem runsAux_replicate_O (g : Nat) (bs : List Bit) :
    runsAux (List.replicate g Bit.O ++ bs) 0 = runsAux bs 0 := by
  induction g with
  | zero => rfl
  | succ g ih => simpa [List.replicate_succ, runsAux] using ih

theorem runsAux_replicate_I (l : Nat) (bs : List Bit) : ∀ n : Nat,
    runsAux (List.replicate l Bit.I ++ bs) n = runsAux bs (n + l) := by
  induction l with
  | zero => intro n; rfl
  | succ l ih =>
    intro n
    rw [List.replicate_succ, List.cons_append]
    show runsAux (List.replicate l Bit.I ++ bs) (n + 1) = runsAux bs (n + (l + 1))
    rw [ih (n + 1)]
    congr 1
    omega

theorem orunsAux_replicate_I (l : Nat) (bs : List Bit) :
    orunsAux (List.replicate l Bit.I ++ bs) 0 = orunsAux bs 0 := by
  induction l with
  | zero => rfl
  | succ l ih => simpa [List.replicate_succ, orunsAux] using ih

theorem orunsAux_replicate_O (g : Nat) (bs : List Bit) : ∀ n : Nat,
    orunsAux (List.replicate g Bit.O ++ bs) n = orunsAux bs (n + g) := by
  induction g with
  | zero => intro n; rfl
  | succ g ih =>
    intro n
    rw [List.replicate_succ, List.cons_append]
    show orunsAux (List.replicate g Bit.O ++ bs) (n + 1) = orunsAux bs (n + (g + 1))
    rw [ih (n + 1)]
    congr 1
    omega

theorem runs_buildList : ∀ (ls : List Nat) (g : Nat) (gs : List Nat),
    1 ≤ g → (∀ x ∈ gs, 1 ≤ x) → (∀ l ∈ ls, 1 ≤ l) → gs.length = ls.length →
    runs (buildList (g :: gs) ls) = ls := by
  intro ls
  induction ls with
  | nil =>
    intro g gs _ _ _ hlen
    obtain rfl : gs = [] := List.length_eq_zero.1 hlen
    rw [buildList_cons_nil, buildList_nil_nil, List.append_nil]
    show runsAux (List.replicate g Bit.O) 0 = []
    have := runsAux_replicate_O g []
    rwa [List.append_nil] at this
  | cons l ls ih =>
    intro g gs hg hgs hls hlen
    obtain ⟨g1, gs1, rfl⟩ : ∃ g1 gs1, gs = g1 :: gs1 := by
      cases gs with
      | nil => simp at hlen
      | cons a as => exact ⟨a, as, rfl⟩
    rw [buildList_cons_cons]
    show runsAux _ 0 = _
    rw [runsAux_replicate_O, runsAux_replicate_I, Nat.zero_add]
    obtain ⟨l1, rfl⟩ : ∃ l1, l = l1 + 1 := by
      have := hls l (List.mem_cons_self _ _)
      exact ⟨l - 1, by omega⟩
    obtain ⟨u, hu⟩ : ∃ u, buildList (g1 :: gs1) ls = Bit.O :: u := by
      have hg1 : 1 ≤ g1 := hgs g1 (List.mem_cons_self _ _)
      obtain ⟨g2, rfl⟩ : ∃ g2, g1 = g2 + 1 := ⟨g1 - 1, by omega⟩
      cases ls with
      | nil => exact ⟨_, by rw [buildList_cons_nil, List.replicate_succ, List.cons_append]⟩
      | cons a as => exact ⟨_, by rw [buildList_cons_cons, List.replicate_succ, List.cons_append]⟩
    rw [hu]
    show (l1 + 1) :: runsAux u 0 = (l1 + 1) :: ls
    have hrec : runs (buildList (g1 :: gs1) ls) = ls :=
      ih g1 gs1 (hgs g1 (List.mem_cons_self _ _))
        (fun x hx => hgs x (List.mem_cons_of_mem _ hx))
        (fun x hx => hls x (List.mem_cons_of_mem _ hx))
        (by simpa using hlen)
    rw [hu] at hrec
    have : runsAux (Bit.O :: u) 0 = runsAux u 0 := rfl
    rw [runs] at hrec
    rw [this] at hrec
    rw [hrec]

theorem oruns_buildList : ∀ (ls : List Nat) (g : Nat) (gs : List Nat),
    1 ≤ g → (∀ x ∈ gs, 1 ≤ x) → (∀ l ∈ ls, 1 ≤ l) → gs.length = ls.length →
    oruns (buildList (g :: gs) ls) = g :: gs := by
  intro ls
  induction ls with
  | nil =>
    intro g gs hg _ _ hlen
    obtain rfl : gs = [] := List.length_eq_zero.1 hlen
    rw [buildList_cons_nil, buildList_nil_nil, List.append_nil]
    show orunsAux (List.replicate g Bit.O) 0 = [g]
    have h1 := orunsAux_replicate_O g [] 0
    rw [List.append_nil] at h1
    rw [h1, Nat.zero_add]
    obtain ⟨g1, rfl⟩ : ∃ g1, g = g1 + 1 := ⟨g - 1, by omega⟩
    rfl
  | cons l ls ih =>
    intro g gs hg hgs hls hlen
    obtain ⟨g1, gs1, rfl⟩ : ∃ g1 gs1, gs = g1 :: gs1 := by
      cases gs with
      | nil => simp at hlen
      | cons a as => exact ⟨a, as, rfl⟩
    rw [buildList_cons_cons]
    show orunsAux _ 0 = _
    rw [orunsAux_replicate_O, Nat.zero_add]
    obtain ⟨l1, rfl⟩ : ∃ l1, l = l1 + 1 := by
      have := hls l (List.mem_cons_self _ _)
      exact ⟨l - 1, by omega⟩
    obtain ⟨g2, rfl⟩ : ∃ g2, g = g2 + 1 := ⟨g - 1, by omega⟩
    rw [List.replicate_succ, List.cons_append]
    show (g2 + 1) :: orunsAux (List.replicate l1 Bit.I ++ buildList (g1 :: gs1) ls) 0 = _
    rw [orunsAux_replicate_I]
    have hrec : oruns (buildList (g1 :: gs1) ls) = g1 :: gs1 :=
      ih g1 gs1 (hgs g1 (List.mem_cons_self _ _))
        (fun x hx => hgs x (List.mem_cons_of_mem _ hx))
        (fun x hx => hls x (List.mem_cons_of_mem _ hx))
        (by simpa using hlen)
    rw [oruns] at hrec
    rw [hrec]


theorem splitRun : ∀ (s : List Bit) (w : Bit), s.head? = some w →
    ∃ a u, 1 ≤ a ∧ s = List.replicate a w ++ u ∧ u.head? ≠ some w := by
  intro s
  induction s with
  | nil =>
    intro w hw
    simp at hw
  | cons c s0 ih =>
    intro w hw
    simp only [List.head?_cons, Option.some.injEq] at hw
    subst hw
    cases hs0 : s0.head? with
    | none =>
      obtain rfl : s0 = [] := by
        cases s0 with
        | nil => rfl
        | cons d s1 => simp at hs0
      exact ⟨1, [], le_refl 1, rfl, by simp⟩
    | some d =>
      by_cases hdw : d = c
      · subst hdw
        obtain ⟨a, u, ha, hs, hu⟩ := ih d hs0
        refine ⟨a + 1, u, by omega, ?_, hu⟩
        rw [List.replicate_succ, List.cons_append, ← hs]
      · refine ⟨1, s0, le_refl 1, by simp, ?_⟩
        rw [hs0]
        simp only [ne_eq, Option.some.injEq]
        exact hdw

theorem decomposeRecord : ∀ (N : Nat) (s : List Bit), s.length ≤ N →
    (∀ b ∈ s, b = Bit.I ∨ b = Bit.O) → s.head? = some Bit.O →
    s.getLast? = some Bit.O →
    (oruns s).length = (runs s).length + 1 ∧ (∀ x ∈ oruns s, 1 ≤ x) ∧
      buildList (oruns s) (runs s) = s := by
  intro N
  induction N with
  | zero =>
    intro s hlen _ hhead _
    obtain rfl : s = [] := List.length_eq_zero.1 (Nat.le_zero.1 hlen)
    simp at hhead
  | succ N ih =>
    intro s hlen hio hhead hlast
    obtain ⟨a, u, ha, rfl, hu⟩ := splitRun s Bit.O hhead
    obtain ⟨a1, rfl⟩ : ∃ a1, a = a1 + 1 := ⟨a - 1, by omega⟩
    cases u with
    | nil =>
      -- the whole record is a single gap run
      rw [List.append_nil]
      have hruns : runs (List.replicate (a1 + 1) Bit.O) = [] := by
        have h0 := runsAux_replicate_O (a1 + 1) []
        rw [List.append_nil] at h0
        exact h0
      have horuns : oruns (List.replicate (a1 + 1) Bit.O) = [a1 + 1] := by
        have h0 := orunsAux_replicate_O (a1 + 1) [] 0
        rw [List.append_nil] at h0
        rw [oruns, h0, Nat.zero_add]
        rfl
      rw [hruns, horuns]
      refine ⟨rfl, ?_, ?_⟩
      · intro x hx
        simp only [List.mem_singleton] at hx
        omega
      · rw [buildList_cons_nil, buildList_nil_nil, List.append_nil]
    | cons c u0 =>
      have hcI : c = Bit.I := by
        have hcmem : c ∈ List.replicate (a1 + 1) Bit.O ++ (c :: u0) :=
          List.mem_append_right _ (List.mem_cons_self _ _)
        rcases hio c hcmem with h | h
        · exact h
        · exfalso
          apply hu
          rw [List.head?_cons, h]
      subst hcI
      obtain ⟨b, v, hb, huv, hv⟩ := splitRun (Bit.I :: u0) Bit.I (by simp)
      obtain ⟨b1, rfl⟩ : ∃ b1, b = b1 + 1 := ⟨b - 1, by omega⟩
      rw [huv]
      cases v with
      | nil =>
        -- impossible: the record would end in a block cell
        exfalso
        rw [huv, List.append_nil] at hlast
        have hrep : (List.replicate (b1 + 1) Bit.I).getLast? = some Bit.I := by
          rw [List.replicate_succ', List.getLast?_concat]
        rw [List.getLast?_append, hrep, Option.or_some] at hlast
        simp at hlast
      | cons d v0 =>
        have hdO : d = Bit.O := by
          have hdmem : d ∈ List.replicate (a1 + 1) Bit.O ++
              (List.replicate (b1 + 1) Bit.I ++ (d :: v0)) := by
            refine List.mem_append_right _ (List.mem_append_right _ ?_)
            exact List.mem_cons_self _ _
          rw [← huv] at hdmem
          rcases hio d hdmem with h | h
          · exfalso
            apply hv
            rw [List.head?_cons, h]
          · exact h
        subst hdO
        have hvio : ∀ x ∈ Bit.O :: v0, x = Bit.I ∨ x = Bit.O := by
          intro x hx
          apply hio
          rw [huv]
          exact List.mem_append_right _ (List.mem_append_right _ hx)
        have hvlast : (Bit.O :: v0).getLast? = some Bit.O := by
          rw [huv, ← List.append_assoc, List.getLast?_append] at hlast
          obtain ⟨w, hw⟩ : ∃ w, (Bit.O :: v0).getLast? = some w := by
            cases hgl : (Bit.O :: v0).getLast? with
            | none =>
              rw [List.getLast?_eq_none_iff] at hgl
              cases hgl
            | some w => exact ⟨w, rfl⟩
          rw [hw, Option.or_some] at hlast
          rw [hw]
          exact hlast
        have hvlen : (Bit.O :: v0).length ≤ N := by
          have h0 := congrArg List.length huv
          simp only [List.length_append, List.length_replicate, List.length_cons]
            at h0 hlen ⊢
          omega
        obtain ⟨ihlen, ihpos, ihbuild⟩ := ih (Bit.O :: v0) hvlen hvio (by simp) hvlast
        -- runs of the whole record
        have hrunseq : runs (List.replicate (a1 + 1) Bit.O ++
            (List.replicate (b1 + 1) Bit.I ++ (Bit.O :: v0))) =
            (b1 + 1) :: runs (Bit.O :: v0) := by
          rw [runs, runsAux_replicate_O, runsAux_replicate_I, Nat.zero_add]
          show (b1 + 1) :: runsAux v0 0 = (b1 + 1) :: runsAux (Bit.O :: v0) 0
          rfl
        have horunseq : oruns (List.replicate (a1 + 1) Bit.O ++
            (List.replicate (b1 + 1) Bit.I ++ (Bit.O :: v0))) =
            (a1 + 1) :: oruns (Bit.O :: v0) := by
          rw [oruns, orunsAux_replicate_O, Nat.zero_add, List.replicate_succ,
            List.cons_append]
          show (a1 + 1) :: orunsAux (List.replicate b1 Bit.I ++ (Bit.O :: v0)) 0 = _
          rw [orunsAux_replicate_I]
          rfl
        rw [hrunseq, horunseq]
        refine ⟨by simp [ihlen], ?_, ?_⟩
        · intro x hx
          rcases List.mem_cons.1 hx with rfl | hx
          · omega
          · exact ihpos x hx
        · rw [buildList_cons_cons, ihbuild]

theorem O_ne_I : Bit.O ≠ Bit.I := by decide

theorem fromList_append_pattern (s : List Bit) (b : Bit) :
    (Combination.fromList (s ++ [b])).pattern =
      if b = Bit.I then
        (Combination.fromList s).pattern |||
          (1 <<< ((Combination.fromList s).len % 32))
      else (Combination.fromList s).pattern := by
  simp [Combination.fromList, List.foldl_append]

theorem fromList_append_len (s : List Bit) (b : Bit) :
    (Combination.fromList (s ++ [b])).len = (Combination.fromList s).len + 1 := by
  simp [Combination.fromList, List.foldl_append]

theorem fromList_len : ∀ (s : List Bit), (Combination.fromList s).len = s.length := by
  intro s
  induction s using List.reverseRecOn with
  | nil => rfl
  | append_singleton s b ih =>
    rw [fromList_append_len, ih]
    simp

theorem fromList_pattern_lt : ∀ (s : List Bit), s.length ≤ 32 →
    (Combination.fromList s).pattern < 2 ^ s.length := by
  intro s
  induction s using List.reverseRecOn with
  | nil =>
    intro _
    decide
  | append_singleton s b ih =>
    intro h
    simp only [List.length_append, List.length_cons, List.length_nil] at h ⊢
    have hs : s.length ≤ 31 := by omega
    have hp : (2 : Nat) ^ s.length < 2 ^ (s.length + 1) := by
      rw [Nat.pow_succ]
      have := Nat.two_pow_pos s.length
      omega
    rw [fromList_append_pattern]
    by_cases hb : b = Bit.I
    · rw [if_pos hb, fromList_len, Nat.mod_eq_of_lt (by omega), Nat.one_shiftLeft]
      exact Nat.or_lt_two_pow (lt_trans (ih (by omega)) hp) hp
    · rw [if_neg hb]
      exact lt_trans (ih (by omega)) hp

theorem bitAt_testBit (c : Combination) (i : Nat) (h : i < 32) :
    c.bitAt i = if c.pattern.testBit i then Bit.I else Bit.O := by
  rw [Combination.bitAt, Nat.mod_eq_of_lt h, Nat.one_shiftLeft, Nat.and_two_pow]
  cases htb : c.pattern.testBit i
  · simp
  · simp [Nat.two_pow_pos]

theorem toList_length (c : Combination) : c.toList.length = c.len := by
  simp [Combination.toList]

theorem onlyIO_toList (c : Combination) : ∀ b ∈ c.toList, b = Bit.I ∨ b = Bit.O := by
  intro b hb
  simp only [Combination.toList, List.mem_map] at hb
  obtain ⟨i, _, rfl⟩ := hb
  rw [Combination.bitAt]
  split
  · exact Or.inl rfl
  · exact Or.inr rfl

theorem toList_fromList : ∀ (s : List Bit), (∀ b ∈ s, b = Bit.I ∨ b = Bit.O) →
    s.length ≤ 32 → (Combination.fromList s).toList = s := by
  intro s
  induction s using List.reverseRecOn with
  | nil =>
    intro _ _
    rfl
  | append_singleton s b ih =>
    intro hio hlen
    simp only [List.length_append, List.length_cons, List.length_nil] at hlen
    have hslen : s.length ≤ 31 := by omega
    have hlen32 : (Combination.fromList (s ++ [b])).len = s.length + 1 := by
      rw [fromList_append_len, fromList_len]
    rw [Combination.toList, hlen32, List.range_succ, List.map_append]
    have htail :
        List.map (Combination.fromList (s ++ [b])).bitAt [s.length] = [b] := by
      simp only [List.map_cons, List.map_nil]
      rw [bitAt_testBit _ _ (by omega), fromList_append_pattern]
      rcases hio b (List.mem_append_right _ (List.mem_cons_self _ _)) with hb | hb
      · subst hb
        rw [if_pos rfl, fromList_len, Nat.mod_eq_of_lt (by omega), Nat.one_shiftLeft,
          Nat.testBit_or, Nat.testBit_two_pow_self]
        simp
      · subst hb
        rw [if_neg O_ne_I]
        have hfb : (Combination.fromList s).pattern.testBit s.length = false := by
          apply Nat.testBit_lt_two_pow
          exact fromList_pattern_lt s (by omega)
        rw [hfb]
        simp
    have hinit :
        List.map (Combination.fromList (s ++ [b])).bitAt (List.range s.length) =
          List.map (Combination.fromList s).bitAt (List.range s.length) := by
      apply List.map_congr_left
      intro i hi
      have hi2 : i < s.length := List.mem_range.1 hi
      rw [bitAt_testBit _ _ (by omega), bitAt_testBit _ _ (by omega),
        fromList_append_pattern]
      rcases hio b (List.mem_append_right _ (List.mem_cons_self _ _)) with hb | hb
      · subst hb
        rw [if_pos rfl, fromList_len, Nat.mod_eq_of_lt (by omega), Nat.one_shiftLeft,
          Nat.testBit_or, Nat.testBit_two_pow_of_ne (by omega)]
        simp
      · subst hb
        rw [if_neg O_ne_I]
    have hihs : (Combination.fromList s).toList = s :=
      ih (fun x hx => hio x (List.mem_append_left _ hx)) (by omega)
    rw [Combination.toList, fromList_len] at hihs
    rw [hinit, hihs, htail]

theorem mem_cellChoices {c q : Bit} :
    c ∈ cellChoices q ↔ ((c = Bit.I ∨ c = Bit.O) ∧ Bit.matches c q = true) := by
  cases c <;> cases q <;> simp [cellChoices, Bit.matches]

theorem mem_pattern_resolutions {p s : List Bit} :
    s ∈ productAll (p.map cellChoices) ↔
      ((∀ b ∈ s, b = Bit.I ∨ b = Bit.O) ∧
        List.Forall₂ (fun a b => Bit.matches a b = true) s p) := by
  rw [mem_productAll, List.forall₂_map_right_iff, ← List.forall₂_and_left]
  constructor
  · intro h
    exact h.imp fun a b hab => mem_cellChoices.1 hab
  · intro h
    exact h.imp fun a b hab => mem_cellChoices.2 hab

theorem all_zip_matches {s p : List Bit} (h : s.length = p.length) :
    ((s.zip p).all (fun q => q.1.matches q.2) = true) ↔
      List.Forall₂ (fun a b => Bit.matches a b = true) s p := by
  rw [List.forall₂_iff_zip]
  simp only [List.all_eq_true]
  constructor
  · intro ha
    exact ⟨h, fun {a b} hab => ha (a, b) hab⟩
  · rintro ⟨_, h2⟩ q hq
    obtain ⟨a, b⟩ := q
    exact h2 hq

theorem mem_lt_sum {t : List Nat} (hpos : ∀ x ∈ t, 1 ≤ x) (hlen : 2 ≤ t.length)
    {x : Nat} (hx : x ∈ t) : x < t.sum := by
  have hperm := List.perm_cons_erase hx
  have hsum : t.sum = x + (t.erase x).sum := by
    have h0 := hperm.sum_eq
    simpa using h0
  have hel : (t.erase x).length = t.length - 1 := by
    rw [List.length_erase, if_pos hx]
  have hsub : 1 ≤ (t.erase x).sum := by
    have h1 : 1 ≤ (t.erase x).length := by omega
    have h2 := List.length_le_sum_of_one_le (t.erase x)
      (fun i hi => hpos i (List.erase_subset _ _ hi))
    omega
  omega

theorem length_filter_of_map {α β : Type} (f : α → β) (q : β → Bool) (l : List α) :
    ((l.map f).filter q).length = (l.filter (fun x => q (f x))).length := by
  rw [List.filter_map]
  simp only [List.length_map]
  rfl

theorem matches_O_right : ∀ {c : Bit}, (c = Bit.I ∨ c = Bit.O) →
    Bit.matches c Bit.O = true → c = Bit.O := by
  rintro c (rfl | rfl) h
  · simp [Bit.matches] at h
  · rfl

theorem head_last_O_of_matches {x p : List Bit}
    (hio : ∀ b ∈ x, b = Bit.I ∨ b = Bit.O)
    (hm : List.Forall₂ (fun a b => Bit.matches a b = true) x ((Bit.O :: p) ++ [Bit.O])) :
    x.head? = some Bit.O ∧ x.getLast? = some Bit.O := by
  constructor
  · rw [List.cons_append] at hm
    obtain ⟨c, x1, hc, _, rfl⟩ := List.forall₂_cons_right_iff.1 hm
    have hcO : c = Bit.O :=
      matches_O_right (hio c (List.mem_cons_self _ _)) hc
    rw [hcO, List.head?_cons]
  · have hrev := List.forall₂_reverse_iff.2 hm
    have hpadrev : ((Bit.O :: p) ++ [Bit.O]).reverse =
        Bit.O :: (p.reverse ++ [Bit.O]) := by
      simp
    rw [hpadrev] at hrev
    obtain ⟨c, w, hc, _, hxrev⟩ := List.forall₂_cons_right_iff.1 hrev
    have hcmem : c ∈ x := by
      have h0 : c ∈ x.reverse := by
        rw [hxrev]
        exact List.mem_cons_self _ _
      exact List.mem_reverse.1 h0
    have hcO : c = Bit.O := matches_O_right (hio c hcmem) hc
    rw [← List.head?_reverse, hxrev, hcO, List.head?_cons]

theorem new_pattern (p : List Bit) (g : List Nat) :
    (Report.new p g).pattern = (Bit.O :: p) ++ [Bit.O] := rfl

theorem new_clues_len (p : List Bit) (g : List Nat) :
    (Report.new p g).clues.map (fun c => c.len) = g := by
  show (g.map Clue.new).map (fun c => c.len) = g
  rw [List.map_map]
  exact List.map_id'' (fun x => rfl) g

theorem new_clues_length (p : List Bit) (g : List Nat) :
    (Report.new p g).clues.length = g.length :=
  List.length_map g Clue.new

theorem combinations_length_eq_brute (p : List Bit) (g : List Nat)
    (hpos : ∀ l ∈ g, 1 ≤ l) (hne : g ≠ [])
    (hsum : g.sum ≤ p.length + 2) (h32 : p.length + 2 ≤ 32) :
    (Report.new p g).combinations.length =
      ((Pattern.combinations (Report.new p g).pattern).filter
        (fun c => decide (runs c.toList = g))).length := by
  have hpadlen : ((Bit.O :: p) ++ [Bit.O]).length = p.length + 2 := by simp
  have hgpos : 1 ≤ g.length := by
    cases g with
    | nil => exact absurd rfl hne
    | cons a as => simp
  -- canonical form of the counter side
  have hre : (Report.new p g).combinations =
      (((productAll (List.replicate (g.length + 1)
          (rustRange 1 (p.length + 2 - g.sum)))).filter
        (fun t => decide (t.sum = p.length + 2 - g.sum))).map
        (fun t => Combination.fromList (buildList t g))).filter
      (fun c => (c.toList.zip ((Bit.O :: p) ++ [Bit.O])).all
        (fun q => q.1.matches q.2)) := by
    simp only [Report.combinations, new_pattern, new_clues_len, new_clues_length,
      hpadlen]
  have hcount1 : (Report.new p g).combinations.length =
      ((productAll (List.replicate (g.length + 1)
          (rustRange 1 (p.length + 2 - g.sum)))).filter
        (fun t =>
          ((Combination.fromList (buildList t g)).toList.zip
            ((Bit.O :: p) ++ [Bit.O])).all (fun q => q.1.matches q.2) &&
          decide (t.sum = p.length + 2 - g.sum))).length := by
    rw [hre, length_filter_of_map, List.filter_filter]
  have hcongrT : (productAll (List.replicate (g.length + 1)
        (rustRange 1 (p.length + 2 - g.sum)))).filter
        (fun t =>
          ((Combination.fromList (buildList t g)).toList.zip
            ((Bit.O :: p) ++ [Bit.O])).all (fun q => q.1.matches q.2) &&
          decide (t.sum = p.length + 2 - g.sum)) =
      (productAll (List.replicate (g.length + 1)
        (rustRange 1 (p.length + 2 - g.sum)))).filter
        (fun t => decide (t.sum = p.length + 2 - g.sum) &&
          decide (List.Forall₂ (fun a b => Bit.matches a b = true) (buildList t g)
            ((Bit.O :: p) ++ [Bit.O]))) := by
    apply List.filter_congr
    intro t _
    by_cases hs : t.sum = p.length + 2 - g.sum
    · have hbl : (buildList t g).length = p.length + 2 := by
        rw [length_buildList, hs]
        omega
      have htl : (Combination.fromList (buildList t g)).toList = buildList t g :=
        toList_fromList _ (onlyIO_buildList t g) (by omega)
      rw [htl, decide_eq_true hs, Bool.and_true, Bool.true_and, Bool.eq_iff_iff,
        decide_eq_true_eq]
      exact all_zip_matches (by rw [hbl, hpadlen])
    · rw [decide_eq_false hs, Bool.and_false, Bool.false_and]
  -- canonical form of the brute-force side
  have hbrute : ((Pattern.combinations ((Bit.O :: p) ++ [Bit.O])).filter
      (fun c => decide (runs c.toList = g))).length =
      ((productAll (((Bit.O :: p) ++ [Bit.O]).map cellChoices)).filter
        (fun s => decide (runs s = g))).length := by
    rw [Pattern.combinations, length_filter_of_map]
    congr 1
    apply List.filter_congr
    intro s hs
    obtain ⟨hio, hm⟩ := mem_pattern_resolutions.1 hs
    have hlen : s.length = p.length + 2 := by
      rw [hm.length_eq, hpadlen]
    rw [toList_fromList s hio (by omega)]
  -- facts about members of the counter-side filtered tuple list
  have hAmem : ∀ t ∈ (productAll (List.replicate (g.length + 1)
      (rustRange 1 (p.length + 2 - g.sum)))).filter
        (fun t => decide (t.sum = p.length + 2 - g.sum) &&
          decide (List.Forall₂ (fun a b => Bit.matches a b = true) (buildList t g)
            ((Bit.O :: p) ++ [Bit.O]))),
      t.length = g.length + 1 ∧
        (∀ x ∈ t, 1 ≤ x ∧ x < p.length + 2 - g.sum) ∧
        t.sum = p.length + 2 - g.sum ∧
        List.Forall₂ (fun a b => Bit.matches a b = true) (buildList t g)
          ((Bit.O :: p) ++ [Bit.O]) := by
    intro t ht
    have htT := List.mem_of_mem_filter ht
    have htp := List.of_mem_filter ht
    rw [Bool.and_eq_true, decide_eq_true_eq, decide_eq_true_eq] at htp
    obtain ⟨hlen, hmem⟩ := forall₂_replicate_right.1 (mem_productAll.1 htT)
    exact ⟨hlen, fun x hx => mem_rustRange.1 (hmem x hx), htp.1, htp.2⟩
  have horuns_of : ∀ t ∈ (productAll (List.replicate (g.length + 1)
      (rustRange 1 (p.length + 2 - g.sum)))).filter
        (fun t => decide (t.sum = p.length + 2 - g.sum) &&
          decide (List.Forall₂ (fun a b => Bit.matches a b = true) (buildList t g)
            ((Bit.O :: p) ++ [Bit.O]))),
      oruns (buildList t g) = t := by
    intro t ht
    obtain ⟨hlen, hxk, _, _⟩ := hAmem t ht
    obtain ⟨t0, ts, rfl⟩ : ∃ t0 ts, t = t0 :: ts := by
      cases t with
      | nil => simp at hlen
      | cons t0 ts => exact ⟨t0, ts, rfl⟩
    exact oruns_buildList g t0 ts (hxk t0 (List.mem_cons_self _ _)).1
      (fun x hx => (hxk x (List.mem_cons_of_mem _ hx)).1) hpos
      (by simpa using hlen)
  -- membership equivalence between built layouts and filtered resolutions
  have hmem_iff : ∀ x,
      (x ∈ ((productAll (List.replicate (g.length + 1)
        (rustRange 1 (p.length + 2 - g.sum)))).filter
        (fun t => decide (t.sum = p.length + 2 - g.sum) &&
          decide (List.Forall₂ (fun a b => Bit.matches a b = true) (buildList t g)
            ((Bit.O :: p) ++ [Bit.O])))).map (fun t => buildList t g)) ↔
      x ∈ (productAll (((Bit.O :: p) ++ [Bit.O]).map cellChoices)).filter
        (fun s => decide (runs s = g)) := by
    intro x
    constructor
    · intro hx
      obtain ⟨t, ht, rfl⟩ := List.mem_map.1 hx
      obtain ⟨hlen, hxk, hsum1, hmatch⟩ := hAmem t ht
      have hinR : buildList t g ∈
          productAll (((Bit.O :: p) ++ [Bit.O]).map cellChoices) :=
        mem_pattern_resolutions.2 ⟨onlyIO_buildList t g, hmatch⟩
      obtain ⟨t0, ts, rfl⟩ : ∃ t0 ts, t = t0 :: ts := by
        cases t with
        | nil => simp at hlen
        | cons t0 ts => exact ⟨t0, ts, rfl⟩
      have hruns : runs (buildList (t0 :: ts) g) = g :=
        runs_buildList g t0 ts (hxk t0 (List.mem_cons_self _ _)).1
          (fun y hy => (hxk y (List.mem_cons_of_mem _ hy)).1) hpos
          (by simpa using hlen)
      exact List.mem_filter.2 ⟨hinR, by rw [hruns]; exact decide_eq_true rfl⟩
    · intro hx
      obtain ⟨hinR, hpred⟩ := List.mem_filter.1 hx
      obtain ⟨hio, hmatch⟩ := mem_pattern_resolutions.1 hinR
      have hlenx : x.length = p.length + 2 := by
        rw [hmatch.length_eq, hpadlen]
      have hrunsx : runs x = g := of_decide_eq_true hpred
      obtain ⟨hhead, hlast⟩ := head_last_O_of_matches hio hmatch
      obtain ⟨hL, hP, hB⟩ := decomposeRecord x.length x (le_refl _) hio hhead hlast
      have hm : (oruns x).length = g.length + 1 := by
        rw [hL, hrunsx]
      have hsumx : (oruns x).sum = p.length + 2 - g.sum := by
        have h0 := length_buildList (oruns x) (runs x)
        rw [hB] at h0
        have h1 : (runs x).sum = g.sum := by rw [hrunsx]
        omega
      have hupper : ∀ y ∈ oruns x, y < p.length + 2 - g.sum := by
        intro y hy
        have h0 := mem_lt_sum hP (by omega) hy
        rwa [hsumx] at h0
      have htT : oruns x ∈ productAll (List.replicate (g.length + 1)
          (rustRange 1 (p.length + 2 - g.sum))) :=
        mem_productAll.2 (forall₂_replicate_right.2
          ⟨hm, fun y hy => mem_rustRange.2 ⟨hP y hy, hupper y hy⟩⟩)
      have hbuildx : buildList (oruns x) g = x := by
        rw [← hrunsx]
        exact hB
      refine List.mem_map.2 ⟨oruns x, List.mem_filter.2 ⟨htT, ?_⟩, hbuildx⟩
      rw [Bool.and_eq_true, decide_eq_true_eq, decide_eq_true_eq]
      refine ⟨hsumx, ?_⟩
      rw [hbuildx]
      exact hmatch
  -- both sides are duplicate-free
  have hTnodup : (productAll (List.replicate (g.length + 1)
      (rustRange 1 (p.length + 2 - g.sum)))).Nodup := by
    apply nodup_productAll
    intro l hl
    rw [List.eq_of_mem_replicate hl]
    exact nodup_rustRange _ _
  have hAnodup := hTnodup.filter
    (fun t => decide (t.sum = p.length + 2 - g.sum) &&
      decide (List.Forall₂ (fun a b => Bit.matches a b = true) (buildList t g)
        ((Bit.O :: p) ++ [Bit.O])))
  have hRnodup : (productAll (((Bit.O :: p) ++ [Bit.O]).map cellChoices)).Nodup := by
    apply nodup_productAll
    intro l hl
    obtain ⟨q, _, rfl⟩ := List.mem_map.1 hl
    cases q <;> simp [cellChoices]
  have hCnodup := hRnodup.filter (fun s => decide (runs s = g))
  have hMnodup : (((productAll (List.replicate (g.length + 1)
      (rustRange 1 (p.length + 2 - g.sum)))).filter
        (fun t => decide (t.sum = p.length + 2 - g.sum) &&
          decide (List.Forall₂ (fun a b => Bit.matches a b = true) (buildList t g)
            ((Bit.O :: p) ++ [Bit.O])))).map (fun t => buildList t g)).Nodup := by
    apply hAnodup.map_on
    intro t1 h1 t2 h2 heq
    rw [← horuns_of t1 h1, ← horuns_of t2 h2, heq]
  -- conclude by counting through the finite set of layouts
  have hfin : (((productAll (List.replicate (g.length + 1)
      (rustRange 1 (p.length + 2 - g.sum)))).filter
        (fun t => decide (t.sum = p.length + 2 - g.sum) &&
          decide (List.Forall₂ (fun a b => Bit.matches a b = true) (buildList t g)
            ((Bit.O :: p) ++ [Bit.O])))).map (fun t => buildList t g)).toFinset =
      ((productAll (((Bit.O :: p) ++ [Bit.O]).map cellChoices)).filter
        (fun s => decide (runs s = g))).toFinset := by
    ext x
    simp only [List.mem_toFinset]
    exact hmem_iff x
  have hlenAC : (((productAll (List.replicate (g.length + 1)
      (rustRange 1 (p.length + 2 - g.sum)))).filter
        (fun t => decide (t.sum = p.length + 2 - g.sum) &&
          decide (List.Forall₂ (fun a b => Bit.matches a b = true) (buildList t g)
            ((Bit.O :: p) ++ [Bit.O])))).map (fun t => buildList t g)).length =
      ((productAll (((Bit.O :: p) ++ [Bit.O]).map cellChoices)).filter
        (fun s => decide (runs s = g))).length := by
    rw [← List.toFinset_card_of_nodup hMnodup, ← List.toFinset_card_of_nodup hCnodup,
      hfin]
  rw [new_pattern, hcount1, hcongrT, hbrute, ← hlenAC, List.length_map]

theorem combinations_new (p : List Bit) (g : List Nat) :
    (Report.new p g).combinations =
      (((productAll (List.replicate (g.length + 1)
          (rustRange 1 (p.length + 2 - g.sum)))).filter
        (fun t => decide (t.sum = p.length + 2 - g.sum))).map
        (fun t => Combination.fromList (buildList t g))).filter
      (fun c => (c.toList.zip ((Bit.O :: p) ++ [Bit.O])).all
        (fun q => q.1.matches q.2)) := by
  have hpadlen : ((Bit.O :: p) ++ [Bit.O]).length = p.length + 2 := by simp
  simp only [Report.combinations, new_pattern, new_clues_len, new_clues_length,
    hpadlen]

theorem combinations_clues_nil (p : List Bit) :
    (Report.new p []).combinations = [] := by
  rw [combinations_new]
  have hfil : (productAll (List.replicate (([] : List Nat).length + 1)
      (rustRange 1 (p.length + 2 - ([] : List Nat).sum)))).filter
      (fun t => decide (t.sum = p.length + 2 - ([] : List Nat).sum)) = [] := by
    rw [List.filter_eq_nil_iff]
    intro t ht
    obtain ⟨hlen, hmem⟩ := forall₂_replicate_right.1 (mem_productAll.1 ht)
    obtain ⟨x, rfl⟩ : ∃ x, t = [x] := by
      cases t with
      | nil => simp at hlen
      | cons a as =>
        cases as with
        | nil => exact ⟨a, rfl⟩
        | cons b bs => simp at hlen
    have hx := mem_rustRange.1 (hmem x (List.mem_cons_self _ _))
    simp only [List.sum_cons, List.sum_nil, decide_eq_true_eq]
    omega
  rw [hfil, List.map_nil, List.filter_nil]

theorem productAll_singletons : ∀ (l : List Bit), (∀ b ∈ l, b ≠ Bit.X) →
    productAll (l.map cellChoices) = [l] := by
  intro l
  induction l with
  | nil => intro _; rfl
  | cons b l ih =>
    intro h
    have hb : cellChoices b = [b] := by
      cases b
      · rfl
      · rfl
      · exact absurd rfl (h Bit.X (List.mem_cons_self _ _))
    show productAll (cellChoices b :: l.map cellChoices) = [b :: l]
    rw [show productAll (cellChoices b :: l.map cellChoices) =
      (cellChoices b).flatMap
        (fun x => (productAll (l.map cellChoices)).map (x :: ·)) from rfl]
    rw [hb, ih (fun x hx => h x (List.mem_cons_of_mem _ hx))]
    rfl

theorem count_clues_nil (p : List Bit) : (Report.new p []).count? = some 0 := by
  have hcond : ((Report.new p []).clues.map (fun c => c.len)).sum ≤
      (Report.new p []).pattern.length := by
    rw [new_clues_len]
    exact Nat.zero_le _
  rw [Report.count?, if_pos hcond, combinations_clues_nil]
  rfl

/-- C5 (amended): for every Record with an empty clue list the counter
returns a count of 0, whatever the pattern is: the single gap must have
size exactly `k` but the gap ranges only reach `k - 1`, so no layout is
ever produced. -/
theorem claim_empty_clues_count (p : List Bit) :
    (Report.new p []).count? = some 0 :=
  count_clues_nil p

/-- C5 (counterexample): the record `? []` has no `Block` cell and its
`Unknown` can be resolved to `Gap`, so the claim predicts a count of 1,
but the code yields 0. -/
theorem claim_empty_clues_cex :
    (∀ b ∈ (Report.new [Bit.X] []).pattern, b ≠ Bit.I) ∧
      (Report.new [Bit.X] []).count? = some 0 ∧
      (Report.new [Bit.X] []).count? ≠ some 1 := by
  decide

set_option maxRecDepth 100000 in
/-- C2: the record parsed from `?###???????? 3,2,1` has exactly 10
arrangements. -/
theorem claim_sample_3_2_1_count :
    (Report.new [Bit.X, Bit.I, Bit.I, Bit.I, Bit.X, Bit.X, Bit.X, Bit.X, Bit.X,
      Bit.X, Bit.X, Bit.X] [3, 2, 1]).count? = some 10 := by
  decide

/-- C4: evaluating the counter at the well-typed but unsatisfiable record
`# 4`: the `usize` gap budget `n - Σ len` underflows (`4 > 3`), so instead
of the count 0 promised by the specification the code panics (with
overflow checks) or wraps around (without them); the underflow is modelled
as `none`. -/
theorem claim_unsat_underflow :
    (∀ l ∈ [4], 1 ≤ l) ∧ (Report.new [Bit.I] [4]).count? = none := by
  decide

/-- C6: counting is invariant under the spec-modelled replication
transform at `k = 1`: one copy of the pattern joined with no separator and
one copy of the clue list give back the original record. -/
theorem claim_unfold_one_identity (p : List Bit) (g : List Nat) :
    (Report.new (unfoldRecord p g 1).1 (unfoldRecord p g 1).2).count? =
      (Report.new p g).count? := by
  have h1 : (unfoldRecord p g 1).1 = p := by
    simp [unfoldRecord, List.intercalate]
  have h2 : (unfoldRecord p g 1).2 = g := by
    simp [unfoldRecord]
  rw [h1, h2]

/-- C7: the counter is a pure function of the pattern and the clue
lengths: two Reports that agree on those (whatever their solver-state
fields `start`, `stop` and `solved_until` hold) produce the same count on
every run. -/
theorem claim_count_deterministic (r1 r2 : Report)
    (hp : r1.pattern = r2.pattern)
    (hc : r1.clues.map (fun c => c.len) = r2.clues.map (fun c => c.len)) :
    r1.count? = r2.count? := by
  have hlen : r1.clues.length = r2.clues.length := by
    have h0 := congrArg List.length hc
    simpa using h0
  simp only [Report.count?, Report.combinations, hp, hc, hlen]

/-- C7 (witness): two records with the same pattern and clue lengths but
different solver-state fields count identically. -/
theorem claim_count_deterministic_witness :
    (Report.mk [Bit.O, Bit.X, Bit.O] [Clue.mk 1 none none] 0).count? =
      (Report.mk [Bit.O, Bit.X, Bit.O] [Clue.mk 1 (some 0) (some 2)] 99).count? :=
  claim_count_deterministic
    (Report.mk [Bit.O, Bit.X, Bit.O] [Clue.mk 1 none none] 0)
    (Report.mk [Bit.O, Bit.X, Bit.O] [Clue.mk 1 (some 0) (some 2)] 99)
    (by decide) (by decide)

/-- C8: every constructed Record's stored pattern ends in a `Gap`
sentinel appended by `Report::new`, so every block run is bounded on the
right. -/
theorem claim_pattern_trailing_gap (p : List Bit) (g : List Nat) :
    (Report.new p g).pattern.getLast? = some Bit.O := by
  rw [new_pattern]
  exact List.getLast?_concat _

/-- C9: building a `Combination` is faithful (overflow-free) exactly up to
32 cells: reading a `Combination` built from at most 32 known cells gives
the cells back, while the 33-cell sequence with a block in the last
position is corrupted, because the shift `1 << 32` wraps past the `u32`
width. -/
theorem claim_u32_bitmask_bound :
    (∀ s : List Bit, (∀ b ∈ s, b = Bit.I ∨ b = Bit.O) → s.length ≤ 32 →
        (Combination.fromList s).toList = s) ∧
      ((Combination.fromList (List.replicate 32 Bit.O ++ [Bit.I])).len = 33 ∧
        (Combination.fromList (List.replicate 32 Bit.O ++ [Bit.I])).toList ≠
          List.replicate 32 Bit.O ++ [Bit.I]) :=
  ⟨toList_fromList, by decide⟩

/-- C9 (witness): the roundtrip at a concrete 3-cell sequence. -/
theorem claim_u32_bitmask_bound_witness :
    (Combination.fromList [Bit.I, Bit.O, Bit.I]).toList = [Bit.I, Bit.O, Bit.I] :=
  claim_u32_bitmask_bound.1 [Bit.I, Bit.O, Bit.I] (by decide) (by decide)

/-- C3 (amended): for every Record with a nonempty clue list of positive
lengths, total clue length within the padded pattern (no `usize`
underflow) and a padded pattern of at most 32 cells (a faithful `u32`
bitmask), the counter equals the brute-force reference count over
`Pattern::combinations`. -/
theorem claim_counter_matches_brute (p : List Bit) (g : List Nat)
    (hpos : ∀ l ∈ g, 1 ≤ l) (hne : g ≠ [])
    (hsum : g.sum ≤ (Report.new p g).pattern.length)
    (h32 : (Report.new p g).pattern.length ≤ 32) :
    (Report.new p g).count? =
      some (((Pattern.combinations (Report.new p g).pattern).filter
        (fun c => decide (runs c.toList = g))).length) := by
  have hpadlen : (Report.new p g).pattern.length = p.length + 2 := by
    rw [new_pattern]
    simp
  rw [hpadlen] at hsum h32
  have hcond : ((Report.new p g).clues.map (fun c => c.len)).sum ≤
      (Report.new p g).pattern.length := by
    rw [new_clues_len, hpadlen]
    exact hsum
  rw [Report.count?, if_pos hcond,
    combinations_length_eq_brute p g hpos hne hsum h32]

/-- C3 (witness): counter and brute force agree on the record `? 1`. -/
theorem claim_counter_matches_brute_witness :
    (Report.new [Bit.X] [1]).count? =
      some (((Pattern.combinations (Report.new [Bit.X] [1]).pattern).filter
        (fun c => decide (runs c.toList = [1]))).length) :=
  claim_counter_matches_brute [Bit.X] [1] (by decide) (by decide) (by decide)
    (by decide)

set_option maxRecDepth 1000000 in
/-- C3 (counterexample): the claim fails as stated: with an empty clue
list the counter returns 0 while brute force counts the all-gap
resolution once; with clue lengths exceeding the padded pattern the
counter underflows instead of returning the brute-force 0; and on a
34-cell padded record the wrapped `u32` bitmask makes the two sides
disagree (0 against 1). -/
theorem claim_counter_matches_brute_cex :
    ((Report.new [Bit.O, Bit.O] []).count? ≠
        some (((Pattern.combinations
            (Report.new [Bit.O, Bit.O] []).pattern).filter
          (fun c => decide (runs c.toList = ([] : List Nat)))).length)) ∧
      ((Report.new [Bit.I, Bit.I] [5]).count? ≠
        some (((Pattern.combinations
            (Report.new [Bit.I, Bit.I] [5]).pattern).filter
          (fun c => decide (runs c.toList = [5]))).length)) ∧
      ((Report.new ([Bit.I, Bit.X] ++ List.replicate 29 Bit.O ++ [Bit.I])
          [2, 2]).count? ≠
        some (((Pattern.combinations (Report.new
            ([Bit.I, Bit.X] ++ List.replicate 29 Bit.O ++ [Bit.I])
            [2, 2]).pattern).filter
          (fun c => decide (runs c.toList = [2, 2]))).length)) := by
  refine ⟨by decide, by decide, by decide⟩

/-- C1 (amended): for every Record with positive clue lengths whose
pattern has no `Unknown` cell, whose total clue length fits the padded
pattern and whose padded pattern has at most 32 cells, the count is 1
exactly when the clue list is nonempty and the pattern's maximal
block-run lengths equal the clue list in order, and 0 otherwise. -/
theorem claim_no_unknown_count (p : List Bit) (g : List Nat)
    (hpos : ∀ l ∈ g, 1 ≤ l)
    (hnoX : Bit.X ∉ (Report.new p g).pattern)
    (hsum : g.sum ≤ (Report.new p g).pattern.length)
    (h32 : (Report.new p g).pattern.length ≤ 32) :
    (Report.new p g).count? =
      some (if g ≠ [] ∧ runs (Report.new p g).pattern = g then 1 else 0) := by
  by_cases hg : g = []
  · subst hg
    rw [count_clues_nil p, if_neg (fun hcon => hcon.1 rfl)]
  · have hpadlen : (Report.new p g).pattern.length = p.length + 2 := by
      rw [new_pattern]
      simp
    have hsum2 : g.sum ≤ p.length + 2 := by rwa [hpadlen] at hsum
    have h322 : p.length + 2 ≤ 32 := by rwa [hpadlen] at h32
    have hcond : ((Report.new p g).clues.map (fun c => c.len)).sum ≤
        (Report.new p g).pattern.length := by
      rw [new_clues_len]
      exact hsum
    rw [Report.count?, if_pos hcond,
      combinations_length_eq_brute p g hpos hg hsum2 h322]
    have hnoX2 : ∀ b ∈ (Report.new p g).pattern, b ≠ Bit.X := by
      intro b hb hbe
      exact hnoX (hbe ▸ hb)
    have hsing := productAll_singletons (Report.new p g).pattern hnoX2
    rw [Pattern.combinations, hsing, List.map_cons, List.map_nil]
    have hIOpad : ∀ b ∈ (Report.new p g).pattern, b = Bit.I ∨ b = Bit.O := by
      intro b hb
      cases b
      · exact Or.inl rfl
      · exact Or.inr rfl
      · exact absurd hb hnoX
    have htl : (Combination.fromList (Report.new p g).pattern).toList =
        (Report.new p g).pattern := toList_fromList _ hIOpad h32
    by_cases hr : runs (Report.new p g).pattern = g
    · rw [if_pos ⟨hg, hr⟩, List.filter_cons,
        if_pos (by rw [htl]; exact decide_eq_true hr)]
      simp
    · rw [if_neg (fun hcon => hr hcon.2), List.filter_cons,
        if_neg (fun hq => hr (by rw [htl] at hq; exact of_decide_eq_true hq))]
      simp

/-- C1 (witness): the record `#.# 1,1` has no unknowns, its run lengths
are the clue list, and its count is 1. -/
theorem claim_no_unknown_count_witness :
    (Report.new [Bit.I, Bit.O, Bit.I] [1, 1]).count? =
      some (if [1, 1] ≠ [] ∧
          runs (Report.new [Bit.I, Bit.O, Bit.I] [1, 1]).pattern = [1, 1]
        then 1 else 0) :=
  claim_no_unknown_count [Bit.I, Bit.O, Bit.I] [1, 1] (by decide) (by decide)
    (by decide) (by decide)

set_option maxRecDepth 1000000 in
/-- C1 (counterexample): the claim fails as stated: the all-gap record
with an empty clue list has matching run lengths yet count 0; the record
`# 4` has mismatched run lengths yet no 0 count (the gap budget
underflows); and a 34-cell padded unknown-free record with matching run
lengths still counts 0 because the `u32` bitmask wraps. -/
theorem claim_no_unknown_count_cex :
    (Bit.X ∉ (Report.new [Bit.O] []).pattern ∧
        runs (Report.new [Bit.O] []).pattern = ([] : List Nat) ∧
        (Report.new [Bit.O] []).count? ≠ some 1) ∧
      (Bit.X ∉ (Report.new [Bit.I] [4]).pattern ∧
        runs (Report.new [Bit.I] [4]).pattern ≠ [4] ∧
        (Report.new [Bit.I] [4]).count? ≠ some 0) ∧
      (Bit.X ∉ (Report.new (List.replicate 31 Bit.O ++ [Bit.I]) [1]).pattern ∧
        runs (Report.new (List.replicate 31 Bit.O ++ [Bit.I]) [1]).pattern = [1] ∧
        (Report.new (List.replicate 31 Bit.O ++ [Bit.I]) [1]).count? = some 0) := by
  refine ⟨by decide, by decide, by decide⟩

/-- C10 (amended): with positive clue lengths and a padded pattern of at
most 32 cells, every Combination yielded by `Report::combinations` is
fully resolved, has the padded pattern's length, matches it cell-wise
(`Unknown` matching either value) and its maximal block-run lengths are
exactly the clue list in order. -/
theorem claim_yielded_combination_invariant (p : List Bit) (g : List Nat)
    (hpos : ∀ l ∈ g, 1 ≤ l) (h32 : (Report.new p g).pattern.length ≤ 32) :
    ∀ c ∈ (Report.new p g).combinations,
      (∀ b ∈ c.toList, b = Bit.I ∨ b = Bit.O) ∧
        c.len = (Report.new p g).pattern.length ∧
        List.Forall₂ (fun a b => Bit.matches a b = true) c.toList
          (Report.new p g).pattern ∧
        runs c.toList = g := by
  intro c hc
  have hpadlen : (Report.new p g).pattern.length = p.length + 2 := by
    rw [new_pattern]
    simp
  have h322 : p.length + 2 ≤ 32 := by rwa [hpadlen] at h32
  rw [combinations_new] at hc
  obtain ⟨hmm2, hfilt⟩ := List.mem_filter.1 hc
  obtain ⟨t, htmem, rfl⟩ := List.mem_map.1 hmm2
  have htT := List.mem_of_mem_filter htmem
  have htsum : t.sum = p.length + 2 - g.sum := by
    have h2 := List.of_mem_filter htmem
    simpa using h2
  obtain ⟨hlen, hmemr⟩ := forall₂_replicate_right.1 (mem_productAll.1 htT)
  have hxk : ∀ x ∈ t, 1 ≤ x ∧ x < p.length + 2 - g.sum := fun x hx =>
    mem_rustRange.1 (hmemr x hx)
  obtain ⟨t0, ts, rfl⟩ : ∃ t0 ts, t = t0 :: ts := by
    cases t with
    | nil => simp at hlen
    | cons t0 ts => exact ⟨t0, ts, rfl⟩
  have h0 := (hxk t0 (List.mem_cons_self _ _)).1
  have h1 := (hxk t0 (List.mem_cons_self _ _)).2
  have hbl : (buildList (t0 :: ts) g).length = p.length + 2 := by
    rw [length_buildList]
    omega
  have htl : (Combination.fromList (buildList (t0 :: ts) g)).toList =
      buildList (t0 :: ts) g :=
    toList_fromList _ (onlyIO_buildList _ _) (by omega)
  refine ⟨?_, ?_, ?_, ?_⟩
  · rw [htl]
    exact onlyIO_buildList _ _
  · rw [fromList_len, hbl, hpadlen]
  · rw [new_pattern]
    exact (all_zip_matches (by rw [htl, hbl]; simp)).1 hfilt
  · rw [htl]
    exact runs_buildList g t0 ts h0
      (fun y hy => (hxk y (List.mem_cons_of_mem _ hy)).1) hpos
      (by simpa using hlen)

/-- C10 (witness): the single combination yielded for the record `? 1`
satisfies all four invariants. -/
theorem claim_yielded_combination_invariant_witness :
    (∀ b ∈ (Combination.mk 2 3).toList, b = Bit.I ∨ b = Bit.O) ∧
      (Combination.mk 2 3).len = (Report.new [Bit.X] [1]).pattern.length ∧
      List.Forall₂ (fun a b => Bit.matches a b = true) (Combination.mk 2 3).toList
        (Report.new [Bit.X] [1]).pattern ∧
      runs (Combination.mk 2 3).toList = [1] :=
  claim_yielded_combination_invariant [Bit.X] [1] (by decide) (by decide)
    (Combination.mk 2 3) (by decide)

set_option maxRecDepth 1000000 in
/-- C10 (counterexample): on a record whose padded pattern has 35 cells,
`Report::combinations` yields a combination whose cells read back with
block-run lengths `[1, 1]` instead of the clue list `[1]`: the `u32`
bitmask wraps bit 33 onto bit 1. -/
theorem claim_yielded_combination_invariant_cex :
    Combination.mk 2 35 ∈
        (Report.new (List.replicate 33 Bit.X) [1]).combinations ∧
      runs (Combination.mk 2 35).toList ≠ [1] := by
  refine ⟨by decide, by decide⟩
